import Mathlib

/-!
Verification development for the note-graph construction and link-resolution
core of an Obsidian vault server.  The TypeScript source is shallowly
embedded: strings become lists of characters, JavaScript objects become
structures or association lists, the filesystem becomes an explicit list of
paths, and fallible operations return `Option`/`Except`.  Regex-driven
scanners are embedded as maximal-munch parsers, which coincide with the
source's regular expressions because every capture group's character class
excludes the delimiter that follows it.
-/

namespace Obsidian

/-- Strings are modelled as lists of characters. -/
abbrev Str := List Char

/-- Coerces a Lean string literal into the model representation. -/
def strOf (s : String) : Str := s.data

/-- Model of JavaScript `s.toLowerCase()` (ASCII case folding). -/
def lowerStr (s : Str) : Str := s.map Char.toLower

/-- Case-insensitive equality, as in `a.toLowerCase() === b.toLowerCase()`. -/
def ciEq (a b : Str) : Bool := lowerStr a == lowerStr b

/-- Model of `hay.indexOf(needle)`: index of the first occurrence. -/
def idxOf (needle : Str) : Str → Option Nat
  | [] => if needle.isEmpty then some 0 else none
  | c :: rest =>
    if needle.isPrefixOf (c :: rest) then some 0
    else (idxOf needle rest).map (· + 1)

/-- Model of `hay.includes(needle)`. -/
def strIncludes (hay needle : Str) : Bool := (idxOf needle hay).isSome

/-- Model of `s.startsWith(pre)`. -/
def jsStartsWith (s pre : Str) : Bool := pre.isPrefixOf s

/-- Model of `s.endsWith(suf)`. -/
def jsEndsWith (s suf : Str) : Bool := suf.isSuffixOf s

/-- The `.md`-stripping used by `VaultService.linksMatch`:
`t.endsWith('.md') ? t.slice(0, -3) : t`. -/
def stripMd (s : Str) : Str :=
  if jsEndsWith s (strOf ".md") then s.take (s.length - 3) else s

/-- Scalar YAML values carried in a frontmatter object (model of the
dynamically typed values gray-matter can produce). -/
inductive Yaml where
  | str (s : Str)
  | num (n : Int)
  | bool (b : Bool)
  | strArr (xs : List Str)
  | null
deriving DecidableEq

/-- Typed model of the source's `NoteFrontmatter` interface: recognised keys
`title`, `tags`, `aliases` plus an open bag of extra keys. -/
structure Fm where
  title : Option Str := none
  tags : Option (List Str) := none
  aliases : Option (List Str) := none
  extra : List (Str × Yaml) := []
deriving DecidableEq

/-- Model of the source's `Note` interface (fields used by the claims). -/
structure Note where
  path : Str
  name : Str
  content : Str
  frontmatter : Option Fm := none
  tags : List Str := []
  links : List Str := []
  backlinks : List Str := []
  modified : Nat := 0
deriving DecidableEq

/-- `note.frontmatter?.aliases` with a missing value read as the empty
list (absent and empty behave identically in every use site). -/
def aliasesOf (n : Note) : List Str :=
  match n.frontmatter with
  | some fm => fm.aliases.getD []
  | none => []

/-- `note.frontmatter?.title` as an optional string. -/
def fmTitleOf (n : Note) : Option Str := n.frontmatter.bind Fm.title

/-- Model of `VaultService.readNote`: the vault is the list of parsed notes,
and reading a path returns the note stored at that path, if any. -/
def readNote (notes : List Note) (p : Str) : Option Note :=
  notes.find? (fun n => n.path == p)

/-! ## C8: deleteNote -/

/-- The filesystem, as the list of existing file paths. -/
abbrev FS := List Str

/-- Model of `VaultService.deleteNote`: `fs.unlink` with any failure mapped
to a `Note not found` error; an error leaves the filesystem unchanged. -/
def vaultDeleteNote (fs : FS) (relativePath : Str) : FS × Option Str :=
  if fs.contains relativePath then (fs.erase relativePath, none)
  else (fs, some (strOf "Note not found"))

/-- Model of `NoteTools.deleteNote`: rejects the request unless
`confirm` is true, then delegates to `vaultDeleteNote`. -/
def toolDeleteNote (fs : FS) (path : Str) (confirm : Bool) : FS × Option Str :=
  if !confirm then
    (fs, some (strOf "Deletion must be confirmed with confirm: true"))
  else vaultDeleteNote fs path

/-- C8: deleteNote raises an error and leaves the filesystem unchanged
whenever the confirm flag is not true; when confirmed it fails with
NotFound if the file is absent (filesystem unchanged), and removes the
file when it exists. -/
theorem deleteNote_spec (fs : FS) (path : Str) (confirm : Bool) :
    (confirm = false →
      toolDeleteNote fs path confirm =
        (fs, some (strOf "Deletion must be confirmed with confirm: true"))) ∧
    (confirm = true → fs.contains path = false →
      toolDeleteNote fs path confirm = (fs, some (strOf "Note not found"))) ∧
    (confirm = true → fs.contains path = true →
      toolDeleteNote fs path confirm = (fs.erase path, none)) := by
  refine ⟨fun hc => ?_, fun hc hm => ?_, fun hc hm => ?_⟩
  · simp [toolDeleteNote, hc]
  · have hm' : path ∉ fs := by simpa using hm
    simp [toolDeleteNote, vaultDeleteNote, hc, hm']
  · have hm' : path ∈ fs := by simpa using hm
    simp [toolDeleteNote, vaultDeleteNote, hc, hm']

/-- Witness for C8: concrete runs of all three branches. -/
theorem deleteNote_spec_witness :
    toolDeleteNote [strOf "a.md"] (strOf "a.md") false =
      ([strOf "a.md"], some (strOf "Deletion must be confirmed with confirm: true")) ∧
    toolDeleteNote [strOf "a.md"] (strOf "b.md") true =
      ([strOf "a.md"], some (strOf "Note not found")) ∧
    toolDeleteNote [strOf "a.md"] (strOf "a.md") true = ([], none) := by
  refine ⟨(deleteNote_spec [strOf "a.md"] (strOf "a.md") false).1 rfl, ?_, ?_⟩
  · exact (deleteNote_spec [strOf "a.md"] (strOf "b.md") true).2.1 rfl (by decide)
  · have h := (deleteNote_spec [strOf "a.md"] (strOf "a.md") true).2.2 rfl (by decide)
    simpa using h

/-! ## Stable descending sort

`Array.prototype.sort` with comparator `(a, b) => key(b) - key(a)` is a
stable descending sort; any stable sort computes the same list, so it is
embedded as a stable insertion sort. -/

/-- Stable descending insertion: `x` goes in front of the first element
whose key is not larger than `x`'s. -/
def insertDesc (key : α → Nat) (x : α) : List α → List α
  | [] => [x]
  | y :: ys => if key x < key y then y :: insertDesc key x ys else x :: y :: ys

/-- Stable descending sort by a numeric key. -/
def sortDesc (key : α → Nat) (l : List α) : List α := l.foldr (insertDesc key) []

theorem insertDesc_perm (key : α → Nat) (x : α) (l : List α) :
    (insertDesc key x l).Perm (x :: l) := by
  induction l with
  | nil => simp [insertDesc]
  | cons y ys ih =>
    by_cases h : key x < key y
    · simp only [insertDesc, if_pos h]
      exact (ih.cons y).trans (List.Perm.swap x y ys)
    · simp [insertDesc, if_neg h]

theorem sortDesc_perm (key : α → Nat) (l : List α) : (sortDesc key l).Perm l := by
  induction l with
  | nil => simp [sortDesc]
  | cons x xs ih =>
    exact (insertDesc_perm key x (sortDesc key xs)).trans (ih.cons x)

theorem insertDesc_sorted (key : α → Nat) (x : α) (l : List α)
    (h : l.Pairwise (fun a b => key b ≤ key a)) :
    (insertDesc key x l).Pairwise (fun a b => key b ≤ key a) := by
  induction l with
  | nil => simp [insertDesc]
  | cons y ys ih =>
    rcases List.pairwise_cons.mp h with ⟨hy, hys⟩
    by_cases hxy : key x < key y
    · simp only [insertDesc, if_pos hxy]
      refine List.pairwise_cons.mpr ⟨?_, ih hys⟩
      intro z hz
      have hz' : z ∈ x :: ys := (insertDesc_perm key x ys).mem_iff.mp hz
      rcases List.mem_cons.mp hz' with rfl | hz'
      · exact Nat.le_of_lt hxy
      · exact hy z hz'
    · simp only [insertDesc, if_neg hxy]
      refine List.pairwise_cons.mpr ⟨?_, h⟩
      intro z hz
      rcases List.mem_cons.mp hz with rfl | hz
      · exact Nat.le_of_not_lt hxy
      · exact Nat.le_trans (hy z hz) (Nat.le_of_not_lt hxy)

theorem sortDesc_sorted (key : α → Nat) (l : List α) :
    (sortDesc key l).Pairwise (fun a b => key b ≤ key a) := by
  induction l with
  | nil => simp [sortDesc]
  | cons x xs ih => exact insertDesc_sorted key x (sortDesc key xs) ih

theorem insertDesc_filter_eq (key : α → Nat) (x : α) (l : List α) (s : Nat)
    (hs : key x = s) (hl : l.Pairwise (fun a b => key b ≤ key a)) :
    (insertDesc key x l).filter (fun y => key y == s) =
      x :: l.filter (fun y => key y == s) := by
  induction l with
  | nil => simp [insertDesc, hs]
  | cons y ys ih =>
    rcases List.pairwise_cons.mp hl with ⟨hy, hys⟩
    by_cases hxy : key x < key y
    · have hne : ¬ (key y == s) = true := by
        simp only [beq_iff_eq]
        omega
      simp only [insertDesc, if_pos hxy, List.filter_cons, if_neg hne]
      exact ih hys
    · have hp : (key x == s) = true := by simp [beq_iff_eq, hs]
      simp only [insertDesc, if_neg hxy, List.filter_cons, if_pos hp]

theorem insertDesc_filter_ne (key : α → Nat) (x : α) (l : List α) (s : Nat)
    (hs : key x ≠ s) :
    (insertDesc key x l).filter (fun y => key y == s) =
      l.filter (fun y => key y == s) := by
  induction l with
  | nil => simp [insertDesc, hs]
  | cons y ys ih =>
    by_cases hxy : key x < key y
    · simp only [insertDesc, if_pos hxy, List.filter_cons]
      by_cases hy : (key y == s) = true
      · simp [hy, ih]
      · simp [hy, ih]
    · simp [insertDesc, if_neg hxy, List.filter_cons, hs]

/-- Stability of `sortDesc`: at every key value, the sorted list restricted
to that key equals the input restricted to that key (ties keep scan order). -/
theorem sortDesc_filter (key : α → Nat) (l : List α) (s : Nat) :
    (sortDesc key l).filter (fun y => key y == s) =
      l.filter (fun y => key y == s) := by
  induction l with
  | nil => simp [sortDesc]
  | cons x xs ih =>
    show (insertDesc key x (sortDesc key xs)).filter _ = _
    by_cases hs : key x = s
    · rw [insertDesc_filter_eq key x _ s hs (sortDesc_sorted key xs)]
      simp [List.filter_cons, hs, ih]
    · rw [insertDesc_filter_ne key x _ s hs]
      simp [List.filter_cons, hs, ih]

/-! ## C5: listNotes pagination -/

/-- The tag filter of `NoteTools.listNotes` (`input.tag` is falsy when
absent or empty, in which case no filter applies). -/
def tagFilter (tag : Option Str) (notes : List Note) : List Note :=
  match tag with
  | some t => if t.isEmpty then notes else notes.filter (fun n => n.tags.contains t)
  | none => notes

/-- The filtered collection sorted by descending modification time, as
built by `NoteTools.listNotes` before pagination. -/
def sortedNotes (allNotes : List Note) (tag : Option Str) : List Note :=
  sortDesc Note.modified (tagFilter tag allNotes)

/-- Model of `NoteTools.listNotes`: tag filter, stable sort by `modified`
descending, then `slice(offset, offset + limit)`.  The note collection is
the result of `getAllNotes(folder)`, taken as a parameter. -/
def listNotes (allNotes : List Note) (tag : Option Str) (limit offset : Nat) :
    List Note :=
  ((sortedNotes allNotes tag).drop offset).take limit

theorem flatten_take_chunks (xs : List α) (L : Nat) (n : Nat) :
    ((List.range n).map (fun i => (xs.drop (i * L)).take L)).flatten =
      xs.take (n * L) := by
  induction n with
  | zero => simp
  | succ n ih =>
    rw [List.range_succ, List.map_append, List.flatten_append]
    simp only [List.map_cons, List.map_nil, List.flatten_cons, List.flatten_nil,
      List.append_nil, ih]
    rw [← List.take_add]
    congr 1
    ring

/-- C5: for `0 ≤ O ≤ total` and `L > 0`, `listNotes` returns exactly
`min(L, total - O)` items, and concatenating the pages obtained by stepping
the offset by `L` (enough pages to cover the collection) yields the full
sorted sequence, each note exactly once. -/
theorem listNotes_pagination (allNotes : List Note) (tag : Option Str)
    (L O n : Nat) (_hL : 0 < L) (_hO : O ≤ (sortedNotes allNotes tag).length)
    (hn : (sortedNotes allNotes tag).length ≤ n * L) :
    (listNotes allNotes tag L O).length =
      min L ((sortedNotes allNotes tag).length - O) ∧
    ((List.range n).map (fun i => listNotes allNotes tag L (i * L))).flatten =
      sortedNotes allNotes tag := by
  constructor
  · simp [listNotes, Nat.min_comm]
  · rw [show (fun i => listNotes allNotes tag L (i * L)) =
        (fun i => ((sortedNotes allNotes tag).drop (i * L)).take L) from rfl]
    rw [flatten_take_chunks]
    exact List.take_of_length_le hn

/-- Witness for C5: a three-note vault paged with `L = 2`. -/
theorem listNotes_pagination_witness :
    (0 < 2 ∧ 1 ≤ (sortedNotes
        [{ path := strOf "a.md", name := strOf "a", content := [], modified := 3 },
         { path := strOf "b.md", name := strOf "b", content := [], modified := 1 },
         { path := strOf "c.md", name := strOf "c", content := [], modified := 2 }]
        none).length) ∧
    (listNotes
        [{ path := strOf "a.md", name := strOf "a", content := [], modified := 3 },
         { path := strOf "b.md", name := strOf "b", content := [], modified := 1 },
         { path := strOf "c.md", name := strOf "c", content := [], modified := 2 }]
        none 2 1).length = min 2 (3 - 1) := by
  refine ⟨⟨by decide, by decide⟩, ?_⟩
  have h := (listNotes_pagination
    [{ path := strOf "a.md", name := strOf "a", content := [], modified := 3 },
     { path := strOf "b.md", name := strOf "b", content := [], modified := 1 },
     { path := strOf "c.md", name := strOf "c", content := [], modified := 2 }]
    none 2 1 2 (by decide) (by decide) (by decide)).1
  simpa using h

/-! ## C6: updateNote -/

/-- First-match lookup in an association list (JS property access on the
open frontmatter bag). -/
def alookup (k : Str) : List (Str × Yaml) → Option Yaml
  | [] => none
  | (k', v) :: rest => if k' == k then some v else alookup k rest

/-- `optOr a b` is `a` when present, else `b`. -/
def optOr (a b : Option α) : Option α :=
  match a with
  | some x => some x
  | none => b

/-- JS object spread `{...a, ...b}` on the open key bag: keys of `a` keep
their position but take `b`'s value when overridden; new keys of `b`
follow in order. -/
def spreadAssoc (a b : List (Str × Yaml)) : List (Str × Yaml) :=
  a.map (fun p => (p.1, (alookup p.1 b).getD p.2)) ++
    b.filter (fun p => (alookup p.1 a).isNone)

/-- JS object spread `{...existing, ...update}` on the typed frontmatter. -/
def mergeFm (ex upd : Fm) : Fm :=
  { title := optOr upd.title ex.title
    tags := optOr upd.tags ex.tags
    aliases := optOr upd.aliases ex.aliases
    extra := spreadAssoc ex.extra upd.extra }

/-- Model of `VaultService.updateNote` on an already-read note: the new body
and frontmatter that are written and re-read (the gray-matter
serialise/parse round trip is taken as the identity, as the repository's
round-trip tests assert).  `append && content` is falsy for empty content. -/
def updateNote (existing : Note) (content : Option Str) (frontmatter : Option Fm)
    (append : Bool) : Str × Option Fm :=
  let newContent :=
    match content with
    | some c =>
      if append && !c.isEmpty then existing.content ++ strOf "\n\n" ++ c else c
    | none => existing.content
  let newFrontmatter :=
    match frontmatter with
    | some u => some (mergeFm (existing.frontmatter.getD {}) u)
    | none => existing.frontmatter
  (newContent, newFrontmatter)

theorem alookup_append (k : Str) (l₁ l₂ : List (Str × Yaml)) :
    alookup k (l₁ ++ l₂) = optOr (alookup k l₁) (alookup k l₂) := by
  induction l₁ with
  | nil => simp [alookup, optOr]
  | cons p rest ih =>
    by_cases h : (p.1 == k) = true
    · simp [alookup, h, optOr]
    · simp [alookup, h, optOr, ih]

theorem alookup_filter_key (k : Str) (q : Str → Bool) (l : List (Str × Yaml))
    (hq : q k = true) :
    alookup k (l.filter (fun p => q p.1)) = alookup k l := by
  induction l with
  | nil => simp
  | cons p rest ih =>
    by_cases h : (p.1 == k) = true
    · have : p.1 = k := by simpa using h
      subst this
      simp [List.filter_cons, hq, alookup, h]
    · by_cases hkeep : q p.1 = true
      · simp [List.filter_cons, hkeep, alookup, h, ih]
      · simp only [List.filter_cons]
        rw [if_neg (by simp [hkeep])]
        rw [ih, alookup]
        simp [h]

theorem alookup_map_override (k : Str) (a b : List (Str × Yaml)) :
    alookup k (a.map (fun p => (p.1, (alookup p.1 b).getD p.2))) =
      (alookup k a).map (fun v => (alookup k b).getD v) := by
  induction a with
  | nil => simp [alookup]
  | cons p rest ih =>
    by_cases h : (p.1 == k) = true
    · have : p.1 = k := by simpa using h
      simp [alookup, h, this]
    · simp [alookup, h, ih]

/-- Lookup law for the object spread: an update key overrides, all other
existing keys are preserved. -/
theorem alookup_spread (k : Str) (a b : List (Str × Yaml)) :
    alookup k (spreadAssoc a b) = optOr (alookup k b) (alookup k a) := by
  rw [spreadAssoc, alookup_append, alookup_map_override]
  cases ha : alookup k a with
  | some v =>
    cases hb : alookup k b with
    | some w => simp [optOr, hb]
    | none => simp [optOr, hb]
  | none =>
    rw [alookup_filter_key k (fun x => (alookup x a).isNone) b (by simp [ha])]
    cases hb : alookup k b with
    | some w => simp [optOr]
    | none => simp [optOr]

/-- The existing note used in the C6 counterexample. -/
def c6Existing : Note :=
  { path := strOf "n.md", name := strOf "n", content := strOf "A" }

/-- C6 counterexample: updating with `append = true` and empty content
replaces the body with the empty string instead of appending a blank-line
separator and the (empty) content, because `append && content` is falsy
for the empty string. -/
theorem updateNote_append_empty_counterexample :
    (updateNote c6Existing (some []) none true).1 = [] ∧
    c6Existing.content ++ strOf "\n\n" ++ ([] : Str) ≠ [] := by
  constructor
  · rfl
  · decide

/-- C6 (amended): with `append = true` and nonempty content the body is the
existing body, a blank-line separator, then the new content; with
`append = false` the body is the given content; with no content the body is
unchanged; the frontmatter is the existing frontmatter shallow-merged with
the given frontmatter, keys given in the update overwriting and all other
existing keys preserved (when no frontmatter is given it is unchanged). -/
theorem updateNote_spec (existing : Note) (c : Str) (fmu : Option Fm) (ap : Bool)
    (hc : c ≠ []) :
    ((updateNote existing (some c) fmu true).1 =
        existing.content ++ strOf "\n\n" ++ c) ∧
    ((updateNote existing (some c) fmu false).1 = c) ∧
    ((updateNote existing none fmu ap).1 = existing.content) ∧
    (∀ u, fmu = some u →
      ∃ m, (updateNote existing (some c) fmu ap).2 = some m ∧
        m.title = optOr u.title (existing.frontmatter.getD {}).title ∧
        m.tags = optOr u.tags (existing.frontmatter.getD {}).tags ∧
        m.aliases = optOr u.aliases (existing.frontmatter.getD {}).aliases ∧
        ∀ k, alookup k m.extra =
          optOr (alookup k u.extra)
            (alookup k (existing.frontmatter.getD {}).extra)) ∧
    (fmu = none → (updateNote existing (some c) fmu ap).2 = existing.frontmatter) := by
  have hce : c.isEmpty = false := by
    cases c with
    | nil => exact absurd rfl hc
    | cons a l => rfl
  refine ⟨?_, ?_, ?_, ?_, ?_⟩
  · simp [updateNote, hce]
  · simp [updateNote]
  · simp [updateNote]
  · rintro u rfl
    refine ⟨mergeFm (existing.frontmatter.getD {}) u, by simp [updateNote], rfl, rfl,
      rfl, ?_⟩
    intro k
    exact alookup_spread k (existing.frontmatter.getD {}).extra u.extra
  · rintro rfl
    simp [updateNote]

/-- Witness for C6: a concrete append plus frontmatter merge. -/
theorem updateNote_spec_witness :
    (updateNote c6Existing (some (strOf "B"))
        (some { title := some (strOf "T"),
                extra := [(strOf "k", Yaml.num 1)] }) true).1 =
      strOf "A" ++ strOf "\n\n" ++ strOf "B" ∧
    ∃ m, (updateNote c6Existing (some (strOf "B"))
        (some { title := some (strOf "T"),
                extra := [(strOf "k", Yaml.num 1)] }) true).2 = some m ∧
      m.title = some (strOf "T") := by
  have h := updateNote_spec c6Existing (strOf "B")
    (some { title := some (strOf "T"), extra := [(strOf "k", Yaml.num 1)] }) true
    (by decide)
  refine ⟨h.1, ?_⟩
  obtain ⟨m, hm, ht, -⟩ := h.2.2.2.1 _ rfl
  exact ⟨m, hm, by simpa [optOr, c6Existing] using ht⟩

/-! ## C2: link resolution and backlinks -/

/-- Model of `VaultService.linksMatch`: strips a trailing `.md` from the
link target, compares case-insensitively against the note's bare filename,
then against the note's `.md`-stripped path, then against the note's
frontmatter aliases (aliases are compared as written, unstripped). -/
def linksMatch (linkTarget : Str) (note : Note) : Bool :=
  let cleanLink := stripMd linkTarget
  if ciEq cleanLink note.name then true
  else
    let cleanNotePath := stripMd note.path
    if ciEq cleanLink cleanNotePath then true
    else
      match note.frontmatter with
      | some fm =>
        match fm.aliases with
        | some as => as.any (fun a => ciEq a cleanLink)
        | none => false
      | none => false

/-- Model of `VaultService.getBacklinks`: reads the target note, then
collects, in scan order, every other note one of whose link targets
matches the target note. -/
def getBacklinks (notes : List Note) (targetPath : Str) : Option (List Str) :=
  (readNote notes targetPath).map fun target =>
    notes.filterMap fun n =>
      if n.path == targetPath then none
      else if n.links.any (fun l => linksMatch l target) then some n.path else none

/-- Note A of the C2 counterexample: links to `Bee`. -/
def c2NoteA : Note :=
  { path := strOf "A.md", name := strOf "A", content := [],
    links := [strOf "Bee"] }

/-- Note B of the C2 counterexample: carries the alias `Bee.md`. -/
def c2NoteB : Note :=
  { path := strOf "B.md", name := strOf "B", content := [],
    frontmatter := some { aliases := some [strOf "Bee.md"] } }

/-- C2 counterexample: the raw target `Bee` of note A equals note B's alias
`Bee.md` case-insensitively after stripping a trailing markdown extension
from both sides, yet `linksMatch` returns false (it never strips the alias
side) and `getBacklinks` omits A. -/
theorem linksMatch_alias_counterexample :
    ciEq (stripMd (strOf "Bee")) (stripMd (strOf "Bee.md")) = true ∧
    (strOf "Bee.md") ∈ aliasesOf c2NoteB ∧
    (strOf "Bee") ∈ c2NoteA.links ∧
    linksMatch (strOf "Bee") c2NoteB = false ∧
    getBacklinks [c2NoteA, c2NoteB] (strOf "B.md") = some [] := by
  decide

/-- C2 (amended): if a raw link target of A equals, case-insensitively,
B's bare filename after stripping a trailing `.md` from the target, or B's
`.md`-stripped path after the same stripping, or one of B's aliases taken
verbatim, then `linksMatch` returns true for that link against B and
`getBacklinks(B.path)` includes `A.path`. -/
theorem linksMatch_backlinks (notes : List Note) (A B : Note) (t : Str)
    (hA : A ∈ notes) (hAp : A.path ≠ B.path) (ht : t ∈ A.links)
    (hread : readNote notes B.path = some B)
    (hmatch : ciEq (stripMd t) B.name = true ∨
      ciEq (stripMd t) (stripMd B.path) = true ∨
      ∃ a ∈ aliasesOf B, ciEq a (stripMd t) = true) :
    linksMatch t B = true ∧
    ∃ bl, getBacklinks notes B.path = some bl ∧ A.path ∈ bl := by
  have lm : linksMatch t B = true := by
    unfold linksMatch
    by_cases h1 : ciEq (stripMd t) B.name = true
    · simp [h1]
    · by_cases h2 : ciEq (stripMd t) (stripMd B.path) = true
      · simp [h1, h2]
      · rcases hmatch with hm | hm | ⟨a, ha, hma⟩
        · exact absurd hm h1
        · exact absurd hm h2
        · cases hf : B.frontmatter with
          | none => simp [aliasesOf, hf] at ha
          | some fm =>
            cases hal : fm.aliases with
            | none => simp [aliasesOf, hf, hal] at ha
            | some as =>
              have hmem : a ∈ as := by simpa [aliasesOf, hf, hal] using ha
              have hany : as.any (fun x => ciEq x (stripMd t)) = true :=
                List.any_eq_true.mpr ⟨a, hmem, hma⟩
              simp [h1, h2, hf, hal, hany]
  refine ⟨lm, ?_⟩
  have hbl : getBacklinks notes B.path =
      some (notes.filterMap fun n =>
        if n.path == B.path then none
        else if n.links.any (fun l => linksMatch l B) then some n.path
        else none) := by
    simp [getBacklinks, hread]
  refine ⟨_, hbl, ?_⟩
  apply List.mem_filterMap.mpr
  refine ⟨A, hA, ?_⟩
  have hbeq : (A.path == B.path) = false := by
    simpa using hAp
  have hany : A.links.any (fun l => linksMatch l B) = true :=
    List.any_eq_true.mpr ⟨t, ht, lm⟩
  simp [hbeq, hany]

/-- Witness for C2: `A.md` links to `B` by bare filename and shows up in
B's backlinks. -/
theorem linksMatch_backlinks_witness :
    linksMatch (strOf "B")
      { path := strOf "B.md", name := strOf "B", content := [] } = true ∧
    ∃ bl, getBacklinks
        [{ path := strOf "A.md", name := strOf "A", content := [],
           links := [strOf "B"] },
         { path := strOf "B.md", name := strOf "B", content := [] }]
        (strOf "B.md") = some bl ∧ (strOf "A.md") ∈ bl := by
  exact linksMatch_backlinks
    [{ path := strOf "A.md", name := strOf "A", content := [],
       links := [strOf "B"] },
     { path := strOf "B.md", name := strOf "B", content := [] }]
    { path := strOf "A.md", name := strOf "A", content := [],
      links := [strOf "B"] }
    { path := strOf "B.md", name := strOf "B", content := [] }
    (strOf "B")
    (by decide) (by decide) (by decide) (by decide)
    (Or.inl (by decide))

/-! ## C9: the two orphan computations -/

/-- Model of `VaultService.findNoteByTitle`: exact case-insensitive filename
match, then frontmatter-title match, then alias match, then partial
(substring) filename match; within a tier the first note in scan order
wins. -/
def findNoteByTitle (notes : List Note) (title : Str) : Option Note :=
  optOr (notes.find? fun n => lowerStr n.name == lowerStr title)
    (optOr (notes.find? fun n =>
        match fmTitleOf n with
        | some t => lowerStr t == lowerStr title
        | none => false)
      (optOr (notes.find? fun n =>
          (aliasesOf n).any fun a => lowerStr a == lowerStr title)
        (notes.find? fun n => strIncludes (lowerStr n.name) (lowerStr title))))

/-- The raw link strings of the whole vault, in scan order. -/
def rawLinks (notes : List Note) : List Str := (notes.map Note.links).flatten

/-- The paths receiving at least one resolved link, as collected by
`LinkTools.getOrphans` via `findNoteByTitle` on every raw link string. -/
def resolvedTargets (allNotes : List Note) : List Str :=
  ((rawLinks allNotes).filterMap (fun l => findNoteByTitle allNotes l)).map
    Note.path

/-- Model of `LinkTools.getOrphans`: the paths of notes that are not the
resolved target of any link. -/
def getOrphans (allNotes : List Note) : List Str :=
  (allNotes.filter fun n => !(resolvedTargets allNotes).contains n.path).map
    Note.path

/-- The orphan count of `VaultService.getVaultStats`: notes whose bare name
and path both never occur verbatim among the raw link strings. -/
def statsOrphanCount (notes : List Note) : Nat :=
  (notes.filter fun n =>
    !(rawLinks notes).contains n.name && !(rawLinks notes).contains n.path).length

/-- Note A of the C9 counterexample: links to `b`, lowercase. -/
def c9NoteA : Note :=
  { path := strOf "A.md", name := strOf "A", content := [],
    links := [strOf "b"] }

/-- Note B of the C9 counterexample. -/
def c9NoteB : Note :=
  { path := strOf "B.md", name := strOf "B", content := [] }

/-- C9 counterexample: a link `b` resolves to `B.md` case-insensitively in
`getOrphans` but matches neither name nor path verbatim in
`getVaultStats`, so the two orphan computations disagree (2 ≠ 1). -/
theorem orphans_counterexample :
    statsOrphanCount [c9NoteA, c9NoteB] = 2 ∧
    (getOrphans [c9NoteA, c9NoteB]).length = 1 := by
  decide

theorem optOr_eq_some (a b : Option α) (x : α) (h : optOr a b = some x) :
    a = some x ∨ b = some x := by
  cases a with
  | some y => exact Or.inl (by simpa [optOr] using h)
  | none => exact Or.inr (by simpa [optOr] using h)

/-- `findNoteByTitle` only returns notes of the collection. -/
theorem findNoteByTitle_mem (notes : List Note) (title : Str) (n : Note)
    (h : findNoteByTitle notes title = some n) : n ∈ notes := by
  unfold findNoteByTitle at h
  rcases optOr_eq_some _ _ _ h with h | h
  · exact List.mem_of_find?_eq_some h
  rcases optOr_eq_some _ _ _ h with h | h
  · exact List.mem_of_find?_eq_some h
  rcases optOr_eq_some _ _ _ h with h | h
  · exact List.mem_of_find?_eq_some h
  · exact List.mem_of_find?_eq_some h

/-- C9 (amended): the two orphan computations agree on vaults with distinct
note paths in which every raw link string resolves to a note exactly when
it is that note's verbatim name or path: there `getOrphans` lists exactly
the notes `getVaultStats` counts, so the counts coincide.  In general
(counterexample above) they differ. -/
theorem orphans_agree (notes : List Note)
    (hnd : (notes.map Note.path).Nodup)
    (hres : ∀ l ∈ rawLinks notes, ∀ n ∈ notes,
      (findNoteByTitle notes l = some n ↔ (l = n.name ∨ l = n.path))) :
    getOrphans notes =
      (notes.filter fun n =>
        !(rawLinks notes).contains n.name &&
          !(rawLinks notes).contains n.path).map Note.path ∧
    (getOrphans notes).length = statsOrphanCount notes := by
  have hfilter :
      (notes.filter fun n => !(resolvedTargets notes).contains n.path) =
      (notes.filter fun n =>
        !(rawLinks notes).contains n.name &&
          !(rawLinks notes).contains n.path) := by
    apply List.filter_congr
    intro n hn
    have hiff : n.path ∈ resolvedTargets notes ↔
        (n.name ∈ rawLinks notes ∨ n.path ∈ rawLinks notes) := by
      constructor
      · intro hmem
        rcases List.mem_map.mp hmem with ⟨m, hm, hmp⟩
        rcases List.mem_filterMap.mp hm with ⟨l, hl, hfind⟩
        have hmn : m ∈ notes := findNoteByTitle_mem notes l m hfind
        have : m = n := List.inj_on_of_nodup_map hnd hmn hn hmp
        subst this
        rcases (hres l hl m hmn).mp hfind with h | h
        · exact Or.inl (h ▸ hl)
        · exact Or.inr (h ▸ hl)
      · intro hmem
        rcases hmem with h | h
        · have hfind : findNoteByTitle notes n.name = some n :=
            (hres n.name h n hn).mpr (Or.inl rfl)
          exact List.mem_map.mpr ⟨n, List.mem_filterMap.mpr ⟨n.name, h, hfind⟩, rfl⟩
        · have hfind : findNoteByTitle notes n.path = some n :=
            (hres n.path h n hn).mpr (Or.inr rfl)
          exact List.mem_map.mpr ⟨n, List.mem_filterMap.mpr ⟨n.path, h, hfind⟩, rfl⟩
    by_cases hp : n.path ∈ resolvedTargets notes
    · have := hiff.mp hp
      rcases this with h | h <;> simp [hp, h]
    · have hno := (not_iff_not.mpr hiff).mp hp
      push_neg at hno
      simp [hp, hno.1, hno.2]
  constructor
  · rw [getOrphans, hfilter]
  · rw [getOrphans, hfilter, statsOrphanCount, List.length_map]

/-- Witness for C9: on a vault whose only link is an exact filename
reference, both computations report one orphan. -/
theorem orphans_agree_witness :
    (getOrphans
      [{ path := strOf "A.md", name := strOf "A", content := [],
         links := [strOf "B"] },
       { path := strOf "B.md", name := strOf "B", content := [] }]).length =
    statsOrphanCount
      [{ path := strOf "A.md", name := strOf "A", content := [],
         links := [strOf "B"] },
       { path := strOf "B.md", name := strOf "B", content := [] }] :=
  (orphans_agree
    [{ path := strOf "A.md", name := strOf "A", content := [],
       links := [strOf "B"] },
     { path := strOf "B.md", name := strOf "B", content := [] }]
    (by decide) (by decide)).2

/-! ## C1: link extraction

`WIKI_LINK_REGEX` and `MARKDOWN_LINK_REGEX` are embedded as maximal-munch
scanners: every capture group's character class excludes the delimiters
that can follow it, so greedy matching without backtracking computes
exactly the regular expressions' matches.  The scanners carry a fuel
argument equal to the input length; every step consumes at least one
character, so the fuel never runs out. -/

/-- Model of the source's `ParsedLink` interface. -/
structure ParsedLink where
  raw : Str
  original : Str
  target : Str
  displayText : Option Str := none
  heading : Option Str := none
  blockRef : Option Str := none
  isEmbed : Bool := false
deriving DecidableEq

/-- Maximal run of characters outside `ds`, and the remainder. -/
def spanNotIn (ds : List Char) (cs : Str) : Str × Str :=
  (cs.takeWhile (fun c => !ds.contains c), cs.dropWhile (fun c => !ds.contains c))

/-- One optional wiki-link fragment: a lead character followed by a
non-empty run outside `ds` (one optional capture group of
`WIKI_LINK_REGEX`); on failure the input is left untouched. -/
def optPart (lead : Char) (ds : List Char) (cs : Str) : Option Str × Str :=
  match cs with
  | [] => (none, [])
  | c :: rest =>
    if c = lead then
      let p := spanNotIn ds rest
      if p.1.isEmpty then (none, c :: rest) else (some p.1, p.2)
    else (none, c :: rest)

/-- The capture groups of one wiki-link match. -/
structure WikiParts where
  target : Str
  heading : Option Str
  blockRef : Option Str
  display : Option Str

/-- The body of `WIKI_LINK_REGEX` after the opening brackets:
`([^\]|#^]+)(?:#([^\]|^]+))?(?:\^([^\]|]+))?(?:\|([^\]]+))?\]\]`. -/
def parseWikiBody (cs : Str) : Option (WikiParts × Str) :=
  let t := spanNotIn [']', '|', '#', '^'] cs
  if t.1.isEmpty then none
  else
    let h := optPart '#' [']', '|', '^'] t.2
    let b := optPart '^' [']', '|'] h.2
    let d := optPart '|' [']'] b.2
    match d.2 with
    | ']' :: ']' :: rest => some (⟨t.1, h.1, b.1, d.1⟩, rest)
    | _ => none

/-- One attempted match of `WIKI_LINK_REGEX` at the current position:
an optional `!`, the opening `[[`, then the link body. -/
def tryWikiAt (cs : Str) : Option (ParsedLink × Str) :=
  let p : Bool × Str :=
    match cs with
    | '!' :: rest => (true, rest)
    | _ => (false, cs)
  match p.2 with
  | '[' :: '[' :: rest =>
    (parseWikiBody rest).map fun q =>
      let raw := cs.take (cs.length - q.2.length)
      ({ raw := raw, original := raw, target := q.1.target,
         displayText := q.1.display, heading := q.1.heading,
         blockRef := q.1.blockRef, isEmbed := p.1 }, q.2)
  | _ => none

/-- Scan of `content.matchAll(WIKI_LINK_REGEX)`: try a match at every
position, skipping past each successful match. -/
def scanWikiGo : Nat → Str → List ParsedLink
  | 0, _ => []
  | _ + 1, [] => []
  | fuel + 1, c :: cs =>
    match tryWikiAt (c :: cs) with
    | some (link, rest) => link :: scanWikiGo fuel rest
    | none => scanWikiGo fuel cs

/-- All wiki-syntax link matches of a body, in document order. -/
def scanWiki (content : Str) : List ParsedLink := scanWikiGo content.length content

/-- One attempted match of `MARKDOWN_LINK_REGEX` at the current position:
`!?\[([^\]]*)\]\(([^)]+)\)`. -/
def tryMdAt (cs : Str) : Option (ParsedLink × Str) :=
  let p : Bool × Str :=
    match cs with
    | '!' :: rest => (true, rest)
    | _ => (false, cs)
  match p.2 with
  | '[' :: rest =>
    let disp := spanNotIn [']'] rest
    match disp.2 with
    | ']' :: '(' :: r2 =>
      let tgt := spanNotIn [')'] r2
      if tgt.1.isEmpty then none
      else
        match tgt.2 with
        | ')' :: rest2 =>
          let raw := cs.take (cs.length - rest2.length)
          some ({ raw := raw, original := raw, target := tgt.1,
                  displayText := some disp.1, isEmbed := p.1 }, rest2)
        | _ => none
    | _ => none
  | _ => none

/-- Does a target begin with an external URL scheme. -/
def isHttpTarget (t : Str) : Bool :=
  jsStartsWith t (strOf "http://") || jsStartsWith t (strOf "https://")

/-- Scan of `content.matchAll(MARKDOWN_LINK_REGEX)`: matches whose target
begins with `http://` or `https://` are skipped (but still consumed). -/
def scanMdGo : Nat → Str → List ParsedLink
  | 0, _ => []
  | _ + 1, [] => []
  | fuel + 1, c :: cs =>
    match tryMdAt (c :: cs) with
    | some (link, rest) =>
      if isHttpTarget link.target then scanMdGo fuel rest
      else link :: scanMdGo fuel rest
    | none => scanMdGo fuel cs

/-- All retained markdown-syntax link matches of a body. -/
def scanMd (content : Str) : List ParsedLink := scanMdGo content.length content

/-- Model of `VaultService.extractLinks`: all wiki-syntax matches followed
by all markdown-syntax matches whose target is not an external URL. -/
def extractLinks (content : Str) : List ParsedLink :=
  scanWiki content ++ scanMd content

/-- C1 counterexample: a wiki link whose target is an external URL is
extracted with its `https://` target intact — the URL filter applies only
to markdown-syntax links. -/
theorem extractLinks_wiki_http_counterexample :
    ∃ l ∈ extractLinks (strOf "[[https://x]]"),
      jsStartsWith l.target (strOf "https://") = true := by
  decide

/-- Every link produced by the markdown-syntax scan has a non-URL target. -/
theorem scanMdGo_http (fuel : Nat) (cs : Str) (l : ParsedLink)
    (h : l ∈ scanMdGo fuel cs) : isHttpTarget l.target = false := by
  induction fuel generalizing cs with
  | zero => simp [scanMdGo] at h
  | succ n ih =>
    cases cs with
    | nil => simp [scanMdGo] at h
    | cons c rest =>
      rw [scanMdGo] at h
      cases htry : tryMdAt (c :: rest) with
      | none =>
        rw [htry] at h
        exact ih rest h
      | some p =>
        obtain ⟨lk, r2⟩ := p
        rw [htry] at h
        change l ∈ (if isHttpTarget lk.target then scanMdGo n r2
          else lk :: scanMdGo n r2) at h
        by_cases hf : isHttpTarget lk.target = true
        · rw [if_pos hf] at h
          exact ih r2 h
        · rw [if_neg hf] at h
          rcases List.mem_cons.mp h with rfl | h
          · exact Bool.eq_false_iff.mpr hf
          · exact ih r2 h

/-- C1 (amended): every link returned by `extractLinks` either comes from
the wiki-syntax scan (whose targets are not URL-filtered) or is a
markdown-syntax link whose target begins with neither `http://` nor
`https://`. -/
theorem extractLinks_http (body : Str) (l : ParsedLink)
    (h : l ∈ extractLinks body) :
    l ∈ scanWiki body ∨
      (jsStartsWith l.target (strOf "http://") = false ∧
       jsStartsWith l.target (strOf "https://") = false) := by
  rcases List.mem_append.mp h with h | h
  · exact Or.inl h
  · have hhttp := scanMdGo_http body.length body l h
    rw [isHttpTarget, Bool.or_eq_false_iff] at hhttp
    exact Or.inr hhttp

/-- The markdown link used in the C1 witness. -/
def c1MdLink : ParsedLink :=
  { raw := strOf "[x](y)", original := strOf "[x](y)", target := strOf "y",
    displayText := some (strOf "x") }

/-- Witness for C1: a concrete markdown link with an internal target. -/
theorem extractLinks_http_witness :
    c1MdLink ∈ extractLinks (strOf "[x](y)") ∧
    (c1MdLink ∈ scanWiki (strOf "[x](y)") ∨
      (jsStartsWith c1MdLink.target (strOf "http://") = false ∧
       jsStartsWith c1MdLink.target (strOf "https://") = false)) :=
  ⟨by decide, extractLinks_http (strOf "[x](y)") c1MdLink (by decide)⟩

/-! ## C3: parseNote robustness -/

/-- A character matched by the tag body of `TAG_REGEX`
(a `#` followed by ASCII letters, digits, underscore, slash or hyphen). -/
def isTagChar (c : Char) : Bool :=
  c.isAlpha || c.isDigit || c == '_' || c == '/' || c == '-'

/-- Scan of `content.matchAll(TAG_REGEX)`: at a `#`, a nonempty maximal run
of tag characters is a match; matches are consumed. -/
def scanTagsGo : Nat → Str → List Str
  | 0, _ => []
  | _ + 1, [] => []
  | fuel + 1, c :: cs =>
    if c = '#' then
      let run := cs.takeWhile isTagChar
      if run.isEmpty then scanTagsGo fuel cs
      else run :: scanTagsGo fuel (cs.dropWhile isTagChar)
    else scanTagsGo fuel cs

/-- All inline tag matches of a body. -/
def scanTags (content : Str) : List Str := scanTagsGo content.length content

/-- `Set` accumulation in insertion order. -/
def addUnique (l : List Str) (s : Str) : List Str :=
  if l.contains s then l else l ++ [s]

/-- Model of `VaultService.extractTags` under the declared types:
frontmatter tags (leading `#` stripped) first, then inline tags, all
deduplicated in insertion order. -/
def extractTags (content : Str) (frontmatterTags : Option (List Str)) :
    List Str :=
  let fmCleaned := (frontmatterTags.getD []).map fun t =>
    if jsStartsWith t (strOf "#") then t.drop 1 else t
  (fmCleaned ++ scanTags content).foldl addUnique []

/-- Model of `VaultService.extractTags` under JavaScript's dynamic
semantics, as `parseNote` actually invokes it: `parsed.data` is cast to
`NoteFrontmatter` without validation, so when gray-matter returns a
non-array `tags` value the call `frontmatterTags.forEach(...)` raises a
TypeError instead of degrading. -/
def extractTagsDyn (content : Str) (frontmatterTags : Option Yaml) :
    Except Str (List Str) :=
  match frontmatterTags with
  | none => .ok ((scanTags content).foldl addUnique [])
  | some (Yaml.strArr ts) =>
    .ok (((ts.map fun t => if jsStartsWith t (strOf "#") then t.drop 1 else t)
      ++ scanTags content).foldl addUnique [])
  | some _ =>
    .error (strOf "TypeError: frontmatterTags.forEach is not a function")

/-- C3 evaluation at the failing input: for the file
`---\ntags: hello\n---\nbody`, gray-matter's data has the scalar string
`hello` under `tags`, and `parseNote`'s call to `extractTags` raises a
TypeError rather than returning a note with no matches. -/
theorem extractTags_scalar_throws :
    extractTagsDyn (strOf "body") (some (Yaml.str (strOf "hello"))) =
      .error (strOf "TypeError: frontmatterTags.forEach is not a function") := by
  rfl

/-! ## C4: searchContent -/

/-- The match-type discriminator of a search result. -/
inductive MatchType where
  | title
  | heading
  | content
  | tag
  | frontmatter
deriving DecidableEq

/-- Model of the source's `SearchResult` interface. -/
structure SearchResult where
  path : Str
  name : Str
  score : Nat
  snippet : Option Str := none
  matchType : MatchType
deriving DecidableEq

/-- `SCORE_WEIGHTS.TITLE_EXACT`. -/
def TITLE_EXACT : Nat := 100

/-- `SCORE_WEIGHTS.TITLE_PARTIAL`. -/
def TITLE_PARTIAL : Nat := 50

/-- `SCORE_WEIGHTS.CONTENT_EARLY`. -/
def CONTENT_EARLY : Nat := 20

/-- `SCORE_WEIGHTS.CONTENT_LATE`. -/
def CONTENT_LATE : Nat := 5

/-- Case adjustment: the identity when the search is case-sensitive,
lower-casing otherwise. -/
def csAdj (caseSensitive : Bool) (s : Str) : Str :=
  if caseSensitive then s else lowerStr s

/-- The snippet around a content match: 50 characters before, up to
`SEARCH_SNIPPET_LENGTH` (150) after, with ellipses at cut edges. -/
def mkSnippet (content : Str) (index : Nat) : Str :=
  let start := index - 50
  let stop := min content.length (index + 150)
  (if start > 0 then strOf "..." else []) ++
    (content.drop start).take (stop - start) ++
    (if stop < content.length then strOf "..." else [])

/-- The per-note check of `VaultService.searchContent`: filename tier
(short-circuits the rest), then frontmatter-title tier, then body tier.
The source's float comparison `index / length < 0.2` is embedded as the
integer comparison `5 * index < length`, which agrees with it for every
attainable string length. -/
def noteResult (caseSensitive : Bool) (query : Str) (note : Note) :
    Option SearchResult :=
  let sq := csAdj caseSensitive query
  let nc := csAdj caseSensitive note.content
  let nn := csAdj caseSensitive note.name
  if strIncludes nn sq then
    some { path := note.path, name := note.name,
           score := if nn == sq then TITLE_EXACT else TITLE_PARTIAL,
           matchType := .title }
  else
    let fmHit :=
      match fmTitleOf note with
      | some t => !t.isEmpty && strIncludes (csAdj caseSensitive t) sq
      | none => false
    if fmHit then
      some { path := note.path, name := note.name, score := TITLE_PARTIAL,
             matchType := .title }
    else
      match idxOf sq nc with
      | some index =>
        some { path := note.path, name := note.name,
               score := if 5 * index < nc.length then CONTENT_EARLY
                 else CONTENT_LATE,
               snippet := some (mkSnippet note.content index),
               matchType := .content }
      | none => none

/-- The tag filter of `searchContent` (falsy for an absent or empty tag). -/
def tagBlocks (tag : Option Str) (note : Note) : Bool :=
  match tag with
  | some t => !t.isEmpty && !note.tags.contains t
  | none => false

/-- The unsorted scan results of `searchContent`, in note scan order. -/
def scanResults (notes : List Note) (query : Str) (tag : Option Str)
    (caseSensitive : Bool) : List SearchResult :=
  notes.filterMap fun note =>
    if tagBlocks tag note then none else noteResult caseSensitive query note

/-- Model of `VaultService.searchContent`: scan, stable sort by score
descending, then `slice(0, limit)` when a (truthy, hence nonzero) limit is
given.  The note collection is the result of `getAllNotes(folder)`. -/
def searchContent (notes : List Note) (query : Str) (tag : Option Str)
    (caseSensitive : Bool) (limit : Option Nat) : List SearchResult :=
  let sorted :=
    sortDesc SearchResult.score (scanResults notes query tag caseSensitive)
  match limit with
  | some l => if l ≠ 0 then sorted.take l else sorted
  | none => sorted

/-- C4: each scanned note is scored by its tier exactly as described —
filename tier `TITLE_EXACT`/`TITLE_PARTIAL` with short-circuit,
frontmatter-title tier `TITLE_PARTIAL`, body tier
`CONTENT_EARLY`/`CONTENT_LATE` by the first-20%-of-body test together
with a snippet — and the output is sorted descending by score, ties in
scan order, truncated to the (positive, schema-validated) limit. -/
theorem searchContent_spec (notes : List Note) (query : Str) (tag : Option Str)
    (caseSensitive : Bool) (l : Nat) (hl : l ≠ 0) :
    (∀ note : Note,
      (strIncludes (csAdj caseSensitive note.name) (csAdj caseSensitive query) =
          true →
        noteResult caseSensitive query note =
          some { path := note.path, name := note.name,
                 score :=
                   if csAdj caseSensitive note.name == csAdj caseSensitive query
                   then TITLE_EXACT else TITLE_PARTIAL,
                 matchType := .title }) ∧
      (∀ t, strIncludes (csAdj caseSensitive note.name)
            (csAdj caseSensitive query) = false →
        fmTitleOf note = some t →
        (!t.isEmpty && strIncludes (csAdj caseSensitive t)
            (csAdj caseSensitive query)) = true →
        noteResult caseSensitive query note =
          some { path := note.path, name := note.name, score := TITLE_PARTIAL,
                 matchType := .title }) ∧
      (∀ index, strIncludes (csAdj caseSensitive note.name)
            (csAdj caseSensitive query) = false →
        (match fmTitleOf note with
          | some t => !t.isEmpty && strIncludes (csAdj caseSensitive t)
              (csAdj caseSensitive query)
          | none => false) = false →
        idxOf (csAdj caseSensitive query) (csAdj caseSensitive note.content) =
          some index →
        noteResult caseSensitive query note =
          some { path := note.path, name := note.name,
                 score :=
                   if 5 * index < (csAdj caseSensitive note.content).length
                   then CONTENT_EARLY else CONTENT_LATE,
                 snippet := some (mkSnippet note.content index),
                 matchType := .content })) ∧
    (searchContent notes query tag caseSensitive none).Pairwise
      (fun a b => b.score ≤ a.score) ∧
    (∀ s, (searchContent notes query tag caseSensitive none).filter
        (fun r => r.score == s) =
      (scanResults notes query tag caseSensitive).filter
        (fun r => r.score == s)) ∧
    searchContent notes query tag caseSensitive (some l) =
      (searchContent notes query tag caseSensitive none).take l ∧
    (searchContent notes query tag caseSensitive (some l)).length =
      min l (scanResults notes query tag caseSensitive).length := by
  refine ⟨?_, ?_, ?_, ?_, ?_⟩
  · intro note
    refine ⟨?_, ?_, ?_⟩
    · intro hname
      simp [noteResult, hname]
    · intro t hname hfm hhit
      simp [noteResult, hname, hfm, hhit]
    · intro index hname hfm hidx
      simp only [noteResult, hname]
      rw [if_neg (by simp)]
      rw [if_neg (by simp [hfm]), hidx]
  · exact sortDesc_sorted _ _
  · intro s
    exact sortDesc_filter _ _ s
  · simp [searchContent, hl]
  · simp only [searchContent, if_pos hl]
    rw [List.length_take]
    congr 1
    exact (sortDesc_perm _ _).length_eq

/-- Witness for C4: a concrete two-note search truncated to one result. -/
theorem searchContent_spec_witness :
    searchContent
        [{ path := strOf "a.md", name := strOf "match a", content := [] },
         { path := strOf "b.md", name := strOf "b", content := strOf "match" }]
        (strOf "match") none false (some 1) =
      (searchContent
        [{ path := strOf "a.md", name := strOf "match a", content := [] },
         { path := strOf "b.md", name := strOf "b", content := strOf "match" }]
        (strOf "match") none false none).take 1 :=
  (searchContent_spec
    [{ path := strOf "a.md", name := strOf "match a", content := [] },
     { path := strOf "b.md", name := strOf "b", content := strOf "match" }]
    (strOf "match") none false 1 (by decide)).2.2.2.1

/-! ## C10: getUnlinkedReferences -/

/-- Characters with a syntactic role in an ECMAScript regex pattern. -/
def metaChars : List Char :=
  ['\\', '^', '$', '.', '|', '?', '*', '+', '(', ')', '[', ']', '\x7b', '\x7d']

/-- Consume a character-class body after an opening bracket, up to the
closing bracket; escaped characters are skipped. -/
def parseClassBody : Str → Option Str
  | [] => none
  | ']' :: rest => some rest
  | '\\' :: [] => none
  | '\\' :: _ :: rest => parseClassBody rest
  | c :: rest => if c = ']' then some rest else parseClassBody rest

/-- Skip the group-kind marker after an opening parenthesis
(non-capturing or lookahead groups). -/
def stripGroupPrefix : Str → Str
  | '?' :: ':' :: rest => rest
  | '?' :: '=' :: rest => rest
  | '?' :: '!' :: rest => rest
  | cs => cs

/-- Consume the lazy marker after a quantifier. -/
def stripLazy : Str → Str
  | '?' :: rest => rest
  | cs => cs

/-- Modelled from the spec: validity of an ECMAScript `RegExp` pattern.
The `RegExp` constructor is an external collaborator, not code under
`src/`; this checks a fragment of the ECMAScript Annex-B pattern grammar
in one pass with a group-depth counter and a may-quantify flag: a
quantifier must follow a quantifiable atom (word-boundary escapes,
anchors, alternation bars and group openings are not quantifiable),
groups must balance, classes and escapes must be terminated.  Braces
outside quantifier position are literal characters. -/
def regexValidGo : Nat → Str → Nat → Bool → Bool
  | 0, _, _, _ => false
  | _ + 1, [], depth, _ => depth == 0
  | fuel + 1, c :: rest, depth, canQ =>
    if c = '(' then regexValidGo fuel (stripGroupPrefix rest) (depth + 1) false
    else if c = ')' then
      decide (0 < depth) && regexValidGo fuel rest (depth - 1) true
    else if c = '|' then regexValidGo fuel rest depth false
    else if c = '*' ∨ c = '+' ∨ c = '?' then
      canQ && regexValidGo fuel (stripLazy rest) depth false
    else if c = '^' ∨ c = '$' then regexValidGo fuel rest depth false
    else if c = '\\' then
      match rest with
      | [] => false
      | d :: rest2 => regexValidGo fuel rest2 depth (!(d == 'b' || d == 'B'))
    else if c = '[' then
      match parseClassBody rest with
      | none => false
      | some r => regexValidGo fuel r depth true
    else regexValidGo fuel rest depth true

/-- Validity of a whole pattern (the fuel bounds the pattern length and
never runs out: every step consumes at least one character). -/
def regexValid (p : Str) : Bool := regexValidGo (p.length + 1) p 0 false

/-- The pattern `\b{term}\b` that `getUnlinkedReferences` builds by
unescaped interpolation of the term. -/
def wordPattern (term : Str) : Str :=
  ['\\', 'b'] ++ term ++ ['\\', 'b']

/-- JS `\w`: ASCII letters, digits, underscore. -/
def isWordChar (c : Char) : Bool := c.isAlpha || c.isDigit || c == '_'

/-- Wordness of the character at a position (false past the end). -/
def wordAt (content : Str) (j : Nat) : Bool :=
  match content.drop j with
  | c :: _ => isWordChar c
  | [] => false

/-- The word-boundary assertion between positions `i - 1` and `i`. -/
def boundaryAt (content : Str) (i : Nat) : Bool :=
  (if i = 0 then false else wordAt content (i - 1)) != wordAt content i

/-- A whole-word case-insensitive occurrence of `term` at position `i`. -/
def wholeWordAt (term content : Str) (i : Nat) : Bool :=
  (lowerStr term).isPrefixOf ((lowerStr content).drop i) &&
    boundaryAt content i && boundaryAt content (i + term.length)

/-- Modelled from the spec: the match count of
`content.match(new RegExp('\\b' + term + '\\b', 'gi'))` for a term free
of metacharacters — non-overlapping whole-word case-insensitive
occurrences, scanned left to right. -/
def countWWGo (term content : Str) : Nat → Nat → Nat
  | 0, _ => 0
  | fuel + 1, i =>
    if content.length < i + 1 then 0
    else if wholeWordAt term content i then
      1 + countWWGo term content fuel (i + max 1 term.length)
    else countWWGo term content fuel (i + 1)

/-- The global match count used as the score of an unlinked reference. -/
def countWW (term content : Str) : Nat :=
  countWWGo term content (content.length + 1) 0

/-- One note's term loop in `getUnlinkedReferences`: build the regex for
each term in turn (an invalid pattern throws a SyntaxError that aborts the
whole operation), and record the first term with a nonzero match count. -/
def tryTerms (note : Note) : List Str → Except Str (Option SearchResult)
  | [] => .ok none
  | term :: ts =>
    if regexValid (wordPattern term) = false then
      .error (strOf "SyntaxError: invalid regular expression")
    else
      let m := countWW term note.content
      if m ≠ 0 then
        let index := (idxOf (lowerStr term) (lowerStr note.content)).getD 0
        .ok (some { path := note.path, name := note.name, score := m,
                    snippet := some (mkSnippet note.content index),
                    matchType := .content })
      else tryTerms note ts

/-- One note's processing in `getUnlinkedReferences`: the target itself
and notes already linking to it are skipped; otherwise the first matching
term (if any) contributes a result. -/
def unlinkedStep (target : Note) (targetPath : Str) (terms : List Str)
    (acc : List SearchResult) (note : Note) : Except Str (List SearchResult) :=
  if note.path == targetPath then .ok acc
  else if note.links.any (fun l => linksMatch l target) then .ok acc
  else (tryTerms note terms).map fun r =>
    match r with
    | some res => acc ++ [res]
    | none => acc

/-- Model of `VaultService.getUnlinkedReferences`: the search terms are the
target's filename and its aliases, interpolated unescaped into
`\b{term}\b`; results are capped at `limit`. -/
def getUnlinkedReferences (notes : List Note) (targetPath : Str)
    (limit : Nat) : Except Str (List SearchResult) :=
  match readNote notes targetPath with
  | none => .error (strOf "Note not found")
  | some target =>
    (notes.foldlM
        (unlinkedStep target targetPath (target.name :: aliasesOf target))
        ([] : List SearchResult)).map
      fun rs => rs.take limit

theorem regexValidGo_nil (fuel depth : Nat) (canQ : Bool) :
    regexValidGo (fuel + 1) [] depth canQ = (depth == 0) := rfl

theorem regexValidGo_escape (fuel depth : Nat) (canQ : Bool) (d : Char)
    (rest : Str) :
    regexValidGo (fuel + 1) ('\\' :: d :: rest) depth canQ =
      regexValidGo fuel rest depth (!(d == 'b' || d == 'B')) := rfl

/-- A character outside `metaChars` is consumed as a quantifiable literal
atom. -/
theorem regexValidGo_lit (fuel depth : Nat) (canQ : Bool) (c : Char)
    (rest : Str) (h : c ∉ metaChars) :
    regexValidGo (fuel + 1) (c :: rest) depth canQ =
      regexValidGo fuel rest depth true := by
  have hne : ∀ d : Char, d ∈ metaChars → ¬ c = d := fun d hd he => h (he ▸ hd)
  rw [regexValidGo.eq_def]
  simp only [hne '(' (by decide), hne ')' (by decide), hne '|' (by decide),
    hne '*' (by decide), hne '+' (by decide), hne '?' (by decide),
    hne '^' (by decide), hne '$' (by decide), hne '\\' (by decide),
    hne '[' (by decide), if_false, ite_false, false_or, or_false, or_self]

/-- A metacharacter-free term, followed by the closing word boundary, is
consumed by the validity checker as a run of literal atoms. -/
theorem regexValidGo_literal_run (term : Str) (h : ∀ c ∈ term, c ∉ metaChars) :
    ∀ fuel depth canQ, term.length + 3 ≤ fuel →
      regexValidGo fuel (term ++ ['\\', 'b']) depth canQ = (depth == 0) := by
  induction term with
  | nil =>
    intro fuel depth canQ hf
    obtain ⟨f, rfl⟩ : ∃ f, fuel = f + 1 := ⟨fuel - 1, by omega⟩
    obtain ⟨g, rfl⟩ : ∃ g, f = g + 1 := ⟨f - 1, by omega⟩
    simp only [List.nil_append]
    rw [regexValidGo_escape, regexValidGo_nil]
  | cons c t ih =>
    intro fuel depth canQ hf
    obtain ⟨f, rfl⟩ : ∃ f, fuel = f + 1 := ⟨fuel - 1, by omega⟩
    have hc : c ∉ metaChars := h c (List.mem_cons_self c t)
    have ht : ∀ x ∈ t, x ∉ metaChars := fun x hx => h x (List.mem_cons_of_mem c hx)
    simp only [List.cons_append]
    rw [regexValidGo_lit f depth canQ c _ hc]
    exact ih ht f depth true (by simp at hf ⊢; omega)

/-- A metacharacter-free term yields a valid `\b{term}\b` pattern. -/
theorem regexValid_noMeta (term : Str) (h : ∀ c ∈ term, c ∉ metaChars) :
    regexValid (wordPattern term) = true := by
  rw [regexValid, wordPattern]
  have hlen : (['\\', 'b'] ++ term ++ ['\\', 'b']).length = term.length + 4 := by
    simp
  rw [hlen]
  simp only [List.cons_append, List.nil_append]
  rw [show term.length + 4 + 1 = (term.length + 4) + 1 from rfl,
    regexValidGo_escape]
  have hb : (!(('b' == 'b') || ('b' == 'B'))) = false := by decide
  rw [hb, regexValidGo_literal_run term h (term.length + 4) 0 false (by omega)]
  rfl

/-- Every term of a metacharacter-free term list is processed without a
SyntaxError. -/
theorem tryTerms_ok (note : Note) (terms : List Str)
    (h : ∀ t ∈ terms, regexValid (wordPattern t) = true) :
    ∃ r, tryTerms note terms = .ok r := by
  induction terms with
  | nil => exact ⟨none, rfl⟩
  | cons term ts ih =>
    have hterm := h term (List.mem_cons_self term ts)
    rw [tryTerms]
    rw [if_neg (by simp [hterm])]
    by_cases hm : countWW term note.content ≠ 0
    · exact ⟨_, by rw [if_pos hm]⟩
    · rw [if_neg hm]
      exact ih fun t htm => h t (List.mem_cons_of_mem term htm)

/-- A step whose term list builds only valid regexes succeeds. -/
theorem unlinkedStep_ok (target : Note) (tp : Str) (terms : List Str)
    (hterms : ∀ t ∈ terms, regexValid (wordPattern t) = true)
    (acc : List SearchResult) (note : Note) :
    ∃ acc2, unlinkedStep target tp terms acc note = .ok acc2 := by
  rw [unlinkedStep]
  by_cases h1 : (note.path == tp) = true
  · exact ⟨acc, by rw [if_pos h1]⟩
  · rw [if_neg h1]
    by_cases h2 : note.links.any (fun l => linksMatch l target) = true
    · exact ⟨acc, by rw [if_pos h2]⟩
    · rw [if_neg h2]
      obtain ⟨r, hr⟩ := tryTerms_ok note terms hterms
      rw [hr]
      exact ⟨_, rfl⟩

/-- The per-note fold of `getUnlinkedReferences` succeeds when every search
term builds a valid regex. -/
theorem unlinkedFold_ok (target : Note) (tp : Str) (terms : List Str)
    (hterms : ∀ t ∈ terms, regexValid (wordPattern t) = true) :
    ∀ (notes : List Note) (acc : List SearchResult),
      ∃ rs, notes.foldlM (unlinkedStep target tp terms) acc =
        Except.ok rs := by
  intro notes
  induction notes with
  | nil => exact fun acc => ⟨acc, rfl⟩
  | cons n ns ih =>
    intro acc
    rw [List.foldlM_cons]
    obtain ⟨acc2, hacc2⟩ := unlinkedStep_ok target tp terms hterms acc n
    rw [hacc2]
    obtain ⟨rs, hrs⟩ := ih acc2
    exact ⟨rs, hrs⟩

instance {ε α : Type _} [DecidableEq ε] [DecidableEq α] :
    DecidableEq (Except ε α) := fun a b =>
  match a, b with
  | .error e, .error f =>
    if h : e = f then .isTrue (by rw [h])
    else .isFalse (by intro hc; cases hc; exact h rfl)
  | .ok x, .ok y =>
    if h : x = y then .isTrue (by rw [h])
    else .isFalse (by intro hc; cases hc; exact h rfl)
  | .error _, .ok _ => .isFalse (by intro hc; cases hc)
  | .ok _, .error _ => .isFalse (by intro hc; cases hc)

/-- The note carrying a plain-text mention used in the C10 examples. -/
def c10Mention : Note :=
  { path := strOf "X.md", name := strOf "X", content := strOf "hello" }

/-- A target note whose filename is an unbalanced parenthesis. -/
def c10Paren : Note :=
  { path := strOf "(.md", name := strOf "(", content := [] }

/-- A target note whose filename is a bare quantifier `+`. -/
def c10Plus : Note :=
  { path := strOf "+.md", name := strOf "+", content := [] }

/-- A target note whose filename is a bare quantifier `*`. -/
def c10Star : Note :=
  { path := strOf "*.md", name := strOf "*", content := [] }

/-- C10: the term is interpolated unescaped into `\b{term}\b`; for every
target whose filename and aliases are free of regex metacharacters the
operation completes without error, and the precondition is required: the
error branch is reached for filenames containing `(`, `+` or `*`. -/
theorem unlinkedReferences_safety :
    (∀ (notes : List Note) (targetPath : Str) (limit : Nat) (target : Note),
      readNote notes targetPath = some target →
      (∀ c ∈ target.name, c ∉ metaChars) →
      (∀ a ∈ aliasesOf target, ∀ c ∈ a, c ∉ metaChars) →
      ∃ rs, getUnlinkedReferences notes targetPath limit = .ok rs) ∧
    getUnlinkedReferences [c10Paren, c10Mention] (strOf "(.md") 50 =
      .error (strOf "SyntaxError: invalid regular expression") ∧
    getUnlinkedReferences [c10Plus, c10Mention] (strOf "+.md") 50 =
      .error (strOf "SyntaxError: invalid regular expression") ∧
    getUnlinkedReferences [c10Star, c10Mention] (strOf "*.md") 50 =
      .error (strOf "SyntaxError: invalid regular expression") := by
  refine ⟨?_, by decide, by decide, by decide⟩
  intro notes targetPath limit target hread hname halias
  have hterms : ∀ t ∈ target.name :: aliasesOf target,
      regexValid (wordPattern t) = true := by
    intro t htm
    rcases List.mem_cons.mp htm with rfl | htm
    · exact regexValid_noMeta _ hname
    · exact regexValid_noMeta _ (halias t htm)
  obtain ⟨rs, hrs⟩ :=
    unlinkedFold_ok target targetPath (target.name :: aliasesOf target)
      hterms notes []
  refine ⟨rs.take limit, ?_⟩
  rw [getUnlinkedReferences, hread]
  simp only [hrs]
  rfl

/-- Witness for C10: a metacharacter-free target completes without error. -/
theorem unlinkedReferences_safety_witness :
    ∃ rs, getUnlinkedReferences
        [{ path := strOf "T.md", name := strOf "T", content := [] },
         c10Mention] (strOf "T.md") 50 = .ok rs :=
  unlinkedReferences_safety.1
    [{ path := strOf "T.md", name := strOf "T", content := [] }, c10Mention]
    (strOf "T.md") 50
    { path := strOf "T.md", name := strOf "T", content := [] }
    (by decide) (by decide) (by decide)

/-! ## C7: connected subgraph -/

/-- A queue entry of the breadth-first traversal. -/
structure QEntry where
  path : Str
  depth : Nat
deriving DecidableEq

/-- The neighbor lookup of `getConnectedNotes`: the first note whose path
is the link, the link plus `.md`, or whose name is the link. -/
def linkFind (allNotes : List Note) (link : Str) : Option Note :=
  allNotes.find? fun n =>
    n.path == link || n.path == (link ++ strOf ".md") || n.name == link

/-- The queue entries pushed after including a note: resolvable outgoing
links and known backlinks not yet included, at the next depth. -/
def pushNeighbors (allNotes : List Note) (note : Note) (included : List Str)
    (depth : Nat) : List QEntry :=
  (note.links.filterMap fun link =>
    match linkFind allNotes link with
    | some ln =>
      if included.contains ln.path then none else some ⟨ln.path, depth + 1⟩
    | none => none) ++
  (note.backlinks.filterMap fun b =>
    if included.contains b then none else some ⟨b, depth + 1⟩)

/-- The loop of `getConnectedNotes`, with fuel: pop an entry; stop when the
result is full; skip the entry if already included or too deep; look its
note up; include it and, while the current depth is strictly below
`maxDepth`, enqueue its neighbors at depth + 1. -/
def bfsGo (allNotes : List Note) (maxDepth maxNotes : Nat) :
    Nat → List QEntry → List Str → List Note → List Note
  | 0, _, _, result => result
  | _ + 1, [], _, result => result
  | fuel + 1, e :: queue, included, result =>
    if maxNotes ≤ result.length then result
    else if included.contains e.path || maxDepth < e.depth then
      bfsGo allNotes maxDepth maxNotes fuel queue included result
    else
      match allNotes.find? (fun n => n.path == e.path) with
      | none => bfsGo allNotes maxDepth maxNotes fuel queue included result
      | some note =>
        bfsGo allNotes maxDepth maxNotes fuel
          (queue ++ (if e.depth < maxDepth then
            pushNeighbors allNotes note included e.depth else []))
          (e.path :: included) (result ++ [note])

/-- Fuel the loop cannot exhaust: every iteration consumes one queue entry,
and entries beyond the initial one are pushed only when a distinct note is
included, at most its link and backlink count at a time. -/
def bfsFuel (allNotes : List Note) : Nat :=
  (1 + allNotes.length) *
    (1 + (allNotes.map fun n => n.links.length + n.backlinks.length).sum)

/-- Model of `NavigationTools.getConnectedNotes`. -/
def getConnectedNotes (allNotes : List Note) (centralPath : Str)
    (maxDepth maxNotes : Nat) : List Note :=
  bfsGo allNotes maxDepth maxNotes (bfsFuel allNotes) [⟨centralPath, 0⟩] [] []

/-- One traversal edge: from a note to the path of one of its resolvable
outgoing links or of one of its known backlinks. -/
inductive ConnStep (allNotes : List Note) : Str → Str → Prop where
  | link (note : Note) (l : Str) (ln : Note) :
      note ∈ allNotes → l ∈ note.links → linkFind allNotes l = some ln →
      ConnStep allNotes note.path ln.path
  | backlink (note : Note) (b : Str) :
      note ∈ allNotes → b ∈ note.backlinks →
      ConnStep allNotes note.path b

/-- Reachability from the central path in a given number of edges. -/
inductive Reach (allNotes : List Note) (central : Str) : Str → Nat → Prop where
  | refl : Reach allNotes central central 0
  | step (p q : Str) (d : Nat) :
      Reach allNotes central p d → ConnStep allNotes p q →
      Reach allNotes central q (d + 1)

theorem bfsGo_cons (allNotes : List Note) (maxDepth maxNotes fuel : Nat)
    (e : QEntry) (queue : List QEntry) (included : List Str)
    (result : List Note) :
    bfsGo allNotes maxDepth maxNotes (fuel + 1) (e :: queue) included result =
      if maxNotes ≤ result.length then result
      else if included.contains e.path || maxDepth < e.depth then
        bfsGo allNotes maxDepth maxNotes fuel queue included result
      else
        match allNotes.find? (fun n => n.path == e.path) with
        | none => bfsGo allNotes maxDepth maxNotes fuel queue included result
        | some note =>
          bfsGo allNotes maxDepth maxNotes fuel
            (queue ++ (if e.depth < maxDepth then
              pushNeighbors allNotes note included e.depth else []))
            (e.path :: included) (result ++ [note]) := rfl

/-- Every pushed neighbor sits one step deeper and stays reachable. -/
theorem pushNeighbors_reach (allNotes : List Note) (note : Note)
    (included : List Str) (depth : Nat) (central : Str)
    (hmem : note ∈ allNotes) (hreach : Reach allNotes central note.path depth) :
    ∀ e ∈ pushNeighbors allNotes note included depth,
      e.depth = depth + 1 ∧ Reach allNotes central e.path (depth + 1) := by
  intro e he
  rcases List.mem_append.mp he with he | he
  · rcases List.mem_filterMap.mp he with ⟨l, hl, heq⟩
    cases hfind : linkFind allNotes l with
    | none => rw [hfind] at heq; cases heq
    | some ln =>
      rw [hfind] at heq
      have heq2 : (if included.contains ln.path then none
          else some (⟨ln.path, depth + 1⟩ : QEntry)) = some e := heq
      by_cases hin : included.contains ln.path = true
      · rw [if_pos hin] at heq2; cases heq2
      · rw [if_neg hin] at heq2
        cases heq2
        exact ⟨rfl,
          Reach.step _ _ _ hreach (ConnStep.link note l ln hmem hl hfind)⟩
  · rcases List.mem_filterMap.mp he with ⟨b, hb, heq⟩
    by_cases hin : included.contains b = true
    · rw [if_pos hin] at heq; cases heq
    · rw [if_neg hin] at heq
      cases heq
      exact ⟨rfl, Reach.step _ _ _ hreach (ConnStep.backlink note b hmem hb)⟩

/-- The loop invariant of `getConnectedNotes`: the output extends the
accumulated result, stays within `maxNotes`, has pairwise distinct paths,
and contains only notes of the collection reachable within `maxDepth`. -/
theorem bfsGo_invariant (allNotes : List Note) (maxDepth maxNotes : Nat)
    (central : Str) :
    ∀ (fuel : Nat) (queue : List QEntry) (included : List Str)
      (result : List Note),
      (∀ e ∈ queue, e.depth ≤ maxDepth ∧
        Reach allNotes central e.path e.depth) →
      (∀ n ∈ result, n ∈ allNotes ∧
        ∃ d ≤ maxDepth, Reach allNotes central n.path d) →
      (∀ n ∈ result, n.path ∈ included) →
      (result.map Note.path).Nodup →
      result.length ≤ maxNotes →
      (∃ t, bfsGo allNotes maxDepth maxNotes fuel queue included result =
        result ++ t) ∧
      (bfsGo allNotes maxDepth maxNotes fuel queue included result).length ≤
        maxNotes ∧
      ((bfsGo allNotes maxDepth maxNotes fuel queue included result).map
        Note.path).Nodup ∧
      (∀ n ∈ bfsGo allNotes maxDepth maxNotes fuel queue included result,
        n ∈ allNotes ∧ ∃ d ≤ maxDepth, Reach allNotes central n.path d) := by
  intro fuel
  induction fuel with
  | zero =>
    intro queue included result _ hres _ hnd hlen
    exact ⟨⟨[], by simp [bfsGo]⟩, by simpa [bfsGo] using hlen,
      by simpa [bfsGo] using hnd, by simpa [bfsGo] using hres⟩
  | succ fuel ih =>
    intro queue included result hq hres hinc hnd hlen
    cases queue with
    | nil =>
      exact ⟨⟨[], by simp [bfsGo]⟩, by simpa [bfsGo] using hlen,
        by simpa [bfsGo] using hnd, by simpa [bfsGo] using hres⟩
    | cons e queue =>
      rw [bfsGo_cons]
      by_cases hstop : maxNotes ≤ result.length
      · rw [if_pos hstop]
        exact ⟨⟨[], by simp⟩, hlen, hnd, hres⟩
      · rw [if_neg hstop]
        by_cases hskip : (included.contains e.path || maxDepth < e.depth) = true
        · rw [if_pos hskip]
          exact ih queue included result
            (fun x hx => hq x (List.mem_cons_of_mem e hx)) hres hinc hnd hlen
        · rw [if_neg hskip]
          cases hfind : allNotes.find? (fun n => n.path == e.path) with
          | none =>
            exact ih queue included result
              (fun x hx => hq x (List.mem_cons_of_mem e hx)) hres hinc hnd hlen
          | some note =>
            have hnmem : note ∈ allNotes := List.mem_of_find?_eq_some hfind
            have hnpath : note.path = e.path := by
              have := List.find?_some hfind
              simpa using this
            have hedep := (hq e (List.mem_cons_self e queue)).1
            have hereach := (hq e (List.mem_cons_self e queue)).2
            have hnotin : included.contains e.path = false := by
              rcases Bool.or_eq_false_iff.mp (Bool.eq_false_iff.mpr hskip)
                with ⟨h1, _⟩
              exact h1
            have hnotin' : e.path ∉ included := by
              simpa using hnotin
            have hq' : ∀ x ∈ queue ++ (if e.depth < maxDepth then
                pushNeighbors allNotes note included e.depth else []),
                x.depth ≤ maxDepth ∧ Reach allNotes central x.path x.depth := by
              intro x hx
              rcases List.mem_append.mp hx with hx | hx
              · exact hq x (List.mem_cons_of_mem e hx)
              · by_cases hd : e.depth < maxDepth
                · rw [if_pos hd] at hx
                  obtain ⟨hxd, hxr⟩ := pushNeighbors_reach allNotes note
                    included e.depth central hnmem (hnpath ▸ hereach) x hx
                  rw [hxd]
                  exact ⟨by omega, hxr⟩
                · rw [if_neg hd] at hx
                  cases hx
            have hres' : ∀ n ∈ result ++ [note], n ∈ allNotes ∧
                ∃ d ≤ maxDepth, Reach allNotes central n.path d := by
              intro n hn
              rcases List.mem_append.mp hn with hn | hn
              · exact hres n hn
              · rcases List.mem_singleton.mp hn with rfl
                exact ⟨hnmem, e.depth, hedep, hnpath ▸ hereach⟩
            have hinc' : ∀ n ∈ result ++ [note], n.path ∈ e.path :: included := by
              intro n hn
              rcases List.mem_append.mp hn with hn | hn
              · exact List.mem_cons_of_mem _ (hinc n hn)
              · rcases List.mem_singleton.mp hn with rfl
                rw [hnpath]
                exact List.mem_cons_self _ _
            have hnd' : ((result ++ [note]).map Note.path).Nodup := by
              rw [List.map_append]
              rw [List.nodup_append]
              refine ⟨hnd, by simp, ?_⟩
              intro x hx hx2
              rcases List.mem_singleton.mp (by simpa using hx2) with rfl
              rcases List.mem_map.mp hx with ⟨n, hn, hnp⟩
              apply hnotin'
              have hni : n.path ∈ included := hinc n hn
              rw [hnp, hnpath] at hni
              exact hni
            have hlen' : (result ++ [note]).length ≤ maxNotes := by
              simp only [List.length_append, List.length_singleton]
              omega
            obtain ⟨⟨t, ht⟩, h2, h3, h4⟩ := ih _ _ _ hq' hres' hinc' hnd' hlen'
            refine ⟨⟨[note] ++ t, ?_⟩, h2, h3, h4⟩
            show bfsGo allNotes maxDepth maxNotes fuel
              (queue ++ (if e.depth < maxDepth then
                pushNeighbors allNotes note included e.depth else []))
              (e.path :: included) (result ++ [note]) =
              result ++ ([note] ++ t)
            rw [ht, List.append_assoc]

/-- C7: `getConnectedNotes` returns at most `maxNotes` notes of the
collection with pairwise distinct paths, each reachable from the central
note within `maxDepth` traversal edges (outgoing links resolved by exact
path, path plus extension or exact name, and known backlinks, enqueued at
depth + 1 only while the current depth is strictly below `maxDepth`); when
`maxNotes` is positive and the central path resolves, the central note is
returned first. -/
theorem getConnectedNotes_spec (allNotes : List Note) (central : Str)
    (maxDepth maxNotes : Nat) :
    (getConnectedNotes allNotes central maxDepth maxNotes).length ≤ maxNotes ∧
    ((getConnectedNotes allNotes central maxDepth maxNotes).map
      Note.path).Nodup ∧
    (∀ n ∈ getConnectedNotes allNotes central maxDepth maxNotes,
      n ∈ allNotes ∧ ∃ d ≤ maxDepth, Reach allNotes central n.path d) ∧
    (∀ n0, 0 < maxNotes →
      allNotes.find? (fun n => n.path == central) = some n0 →
      (getConnectedNotes allNotes central maxDepth maxNotes).head? =
        some n0) := by
  have hq0 : ∀ e ∈ [(⟨central, 0⟩ : QEntry)], e.depth ≤ maxDepth ∧
      Reach allNotes central e.path e.depth := by
    intro e he
    rcases List.mem_singleton.mp he with rfl
    exact ⟨Nat.zero_le _, Reach.refl⟩
  obtain ⟨⟨t, ht⟩, h2, h3, h4⟩ := bfsGo_invariant allNotes maxDepth maxNotes
    central (bfsFuel allNotes) [⟨central, 0⟩] [] []
    hq0 (by simp) (by simp) (by simp) (by simp)
  refine ⟨h2, h3, h4, ?_⟩
  intro n0 hpos hfind
  obtain ⟨f, hf⟩ : ∃ f, bfsFuel allNotes = f + 1 := by
    refine ⟨bfsFuel allNotes - 1, ?_⟩
    have : 0 < bfsFuel allNotes := Nat.mul_pos (by omega) (by omega)
    omega
  have hn0mem : n0 ∈ allNotes := List.mem_of_find?_eq_some hfind
  have hn0path : n0.path = central := by
    have := List.find?_some hfind
    simpa using this
  rw [getConnectedNotes, hf, bfsGo_cons]
  rw [if_neg (by simp only [List.length_nil]; omega)]
  rw [if_neg (by simp)]
  rw [hfind]
  obtain ⟨⟨t2, ht2⟩, -, -, -⟩ := bfsGo_invariant allNotes maxDepth maxNotes
    central f
    (([] : List QEntry) ++
      (if (0 : Nat) < maxDepth then pushNeighbors allNotes n0 [] 0 else []))
    (central :: []) (([] : List Note) ++ [n0])
    (by
      intro x hx
      rcases List.mem_append.mp hx with hx | hx
      · exact absurd hx (List.not_mem_nil x)
      · by_cases hd : (0 : Nat) < maxDepth
        · rw [if_pos hd] at hx
          obtain ⟨hxd, hxr⟩ := pushNeighbors_reach allNotes n0 [] 0 central
            hn0mem (hn0path ▸ Reach.refl) x hx
          rw [hxd]
          exact ⟨by omega, hxr⟩
        · rw [if_neg hd] at hx
          exact absurd hx (List.not_mem_nil x))
    (by
      intro n hn
      rcases List.mem_singleton.mp (by simpa using hn) with rfl
      exact ⟨hn0mem, 0, Nat.zero_le _, hn0path ▸ Reach.refl⟩)
    (by
      intro n hn
      rcases List.mem_singleton.mp (by simpa using hn) with rfl
      rw [hn0path]
      exact List.mem_cons_self _ _)
    (by simp)
    (by simpa using hpos)
  show (bfsGo allNotes maxDepth maxNotes f
      (([] : List QEntry) ++
        (if (0 : Nat) < maxDepth then pushNeighbors allNotes n0 [] 0 else []))
      (central :: []) (([] : List Note) ++ [n0])).head? = some n0
  rw [ht2]
  rfl

/-- Witness for C7: a two-note vault traversed from `A.md`. -/
theorem getConnectedNotes_spec_witness :
    (getConnectedNotes
        [{ path := strOf "A.md", name := strOf "A", content := [],
           links := [strOf "B"] },
         { path := strOf "B.md", name := strOf "B", content := [] }]
        (strOf "A.md") 1 2).head? =
      some { path := strOf "A.md", name := strOf "A", content := [],
             links := [strOf "B"] } :=
  (getConnectedNotes_spec
    [{ path := strOf "A.md", name := strOf "A", content := [],
       links := [strOf "B"] },
     { path := strOf "B.md", name := strOf "B", content := [] }]
    (strOf "A.md") 1 2).2.2.2
    { path := strOf "A.md", name := strOf "A", content := [],
      links := [strOf "B"] }
    (by decide) (by decide)

end Obsidian
